import Mathlib

/-!
Shallow embedding of the echo-server WebSocket components, translated from
internal/ws/handler.go and internal/ws/middleware.go.

Modelling conventions:
- Go float64 values are modelled by GoFloat: exact rationals for finite
  values, plus the two infinities and NaN.  One arithmetic operation on
  finite operands is exact rational arithmetic followed by roundF, which
  maps a magnitude at or beyond the float64 overflow rounding threshold
  to the matching infinity and a magnitude at or below the underflow
  rounding threshold to zero.  In-range nonzero values are kept exact
  rather than rounded to 53-bit precision, and negative zero is
  identified with zero: zeroness, finiteness and the equality test with
  zero - the only aspects of a numeric result any checked property
  inspects - agree with round-to-nearest-even float64 arithmetic.
  JSON-parsed operands are finite, since JSON cannot encode non-finite
  float64 values and out-of-range literals fail json.Unmarshal.
- Go time.Time instants are rationals; time.Now() is passed explicitly.
- The uint64 message counter wraps modulo 2 ^ 64.
- Strings are Lean strings, i.e. sequences of Unicode scalar values; this
  matches Go's []rune view of well-formed UTF-8 text, and byte-level
  strings.HasPrefix with an ASCII pattern coincides with scalar-level
  prefix testing on well-formed UTF-8 input.
- A Go panic is modelled as the none case of an Option result.
-/

namespace EchoServer

/-- CommandRequest (handler.go lines 19-23): operation name and two
float64 operands. -/
structure CommandRequest where
  command : String
  a : ℚ
  b : ℚ
  deriving DecidableEq

/-- A float64 value: a finite value (an exact rational), an infinity, or
NaN. -/
inductive GoFloat where
  | finite (q : ℚ)
  | posInf
  | negInf
  | nan
  deriving DecidableEq

/-- Whether a float64 value is finite. -/
def GoFloat.isFinite : GoFloat → Bool
  | .finite _ => true
  | _ => false

/-- The float64 overflow rounding threshold: an exact magnitude at or
beyond 2^1024 - 2^970 (the midpoint between the largest finite float64
and 2^1024, which round-to-nearest-even sends to infinity) overflows. -/
def overflowBound : ℚ := 2 ^ 1024 - 2 ^ 970

/-- The float64 underflow rounding threshold: an exact magnitude at or
below 2^(-1075) (half the smallest subnormal; the tie rounds to even,
i.e. to zero) rounds to zero. -/
def underflowBound : ℚ := 1 / 2 ^ 1075

/-- Rounding of the exact value of one float64 operation on finite
operands: overflow to the infinities, underflow to zero, in-range values
kept exact (the 53-bit mantissa rounding of in-range nonzero values is
not modelled; it never changes zeroness or finiteness, the only aspects
of a result any checked property inspects). -/
def roundF (x : ℚ) : GoFloat :=
  if x ≤ -overflowBound then GoFloat.negInf
  else if overflowBound ≤ x then GoFloat.posInf
  else if |x| ≤ underflowBound then GoFloat.finite 0
  else GoFloat.finite x

/-- CommandResponse (handler.go lines 25-29).  Go zero values are result
0 and error ""; the json tags are result,omitempty / command /
error,omitempty. -/
structure CommandResponse where
  result : GoFloat := GoFloat.finite 0
  command : String
  error : String := ""
  deriving DecidableEq

/-- Outcome of json.Unmarshal of a payload into a CommandRequest: either
a parse failure carrying the Go error text, or the parsed request. -/
inductive ParseOutcome where
  | failed (msg : String)
  | parsed (req : CommandRequest)
  deriving DecidableEq

/-- The switch statement of processCommand (handler.go lines 73-88): the
result and respErr variables after the switch, as a pair.  Each
arithmetic case performs one float64 operation on the finite parsed
operands, so its result can overflow to an infinity (e.g. adding 1e308
to itself); the result variable's zero value is finite 0. -/
def evalResultErr (req : CommandRequest) : GoFloat × String :=
  if req.command = "add" then (roundF (req.a + req.b), "")
  else if req.command = "subtract" then (roundF (req.a - req.b), "")
  else if req.command = "multiply" then (roundF (req.a * req.b), "")
  else if req.command = "divide" then
    if req.b = 0 then (GoFloat.finite 0, "division by zero")
    else (roundF (req.a / req.b), "")
  else (GoFloat.finite 0, "unknown command: " ++ req.command)

/-- Response construction of processCommand (handler.go lines 90-99):
exactly one of the two optional fields is filled, depending on whether
the error string is empty. -/
def evalCommand (req : CommandRequest) : CommandResponse :=
  if (evalResultErr req).2 ≠ "" then
    { command := req.command, error := (evalResultErr req).2 }
  else
    { command := req.command, result := (evalResultErr req).1 }

/-- processCommand (handler.go lines 55-109): an unmarshal failure yields
command "unknown" with an invalid-JSON error (its zero result marshals
fine, so the ignored Marshal error at line 65 is nil); otherwise the
switch runs.  The final json.Marshal of the response, and its possible
failure on a non-finite result, is marshalResponse below. -/
def processCommand (p : ParseOutcome) : CommandResponse :=
  match p with
  | .failed m => { command := "unknown", error := "invalid JSON: " ++ m }
  | .parsed req => evalCommand req

/-- A JSON field value: a number or a string. -/
inductive JField where
  | num (q : ℚ)
  | str (s : String)
  deriving DecidableEq

/-- json.Marshal on CommandResponse (handler.go line 102): on a finite
result, the ordered list of emitted fields - omitempty drops a zero
result and an empty error, command is always emitted, fields appear in
struct order.  A non-finite result is not omitted (it is not the zero
value), and encoding it fails with UnsupportedValueError, whose text
fmt renders as below; processCommand then returns that error
(handler.go lines 103-104). -/
def marshalResponse (r : CommandResponse) : Except String (List (String × JField)) :=
  match r.result with
  | .finite q =>
    Except.ok ((if q = 0 then [] else [("result", JField.num q)]) ++
      [("command", JField.str r.command)] ++
      (if r.error = "" then [] else [("error", JField.str r.error)]))
  | .posInf => Except.error "json: unsupported value: +Inf"
  | .negInf => Except.error "json: unsupported value: -Inf"
  | .nan => Except.error "json: unsupported value: NaN"

/-- Whether a marshalled object carries a field with the given key. -/
def hasField (fields : List (String × JField)) (k : String) : Bool :=
  fields.any (fun f => f.1 == k)

/-- RateLimiter state (middleware.go lines 13-18); the mutex plays no
role in this sequential model. -/
structure RateLimiter where
  timestamps : List ℚ
  maxMessages : ℕ
  windowDuration : ℚ
  deriving DecidableEq

/-- NewRateLimiter (middleware.go lines 21-27): empty timestamp list. -/
def NewRateLimiter (maxMessages : ℕ) (windowDuration : ℚ) : RateLimiter :=
  { timestamps := [], maxMessages := maxMessages, windowDuration := windowDuration }

/-- The purge step of AllowMessage (middleware.go lines 34-44): keep
exactly the timestamps t with t.After(cutoff), a strict comparison
against cutoff = now - windowDuration. -/
def purge (rl : RateLimiter) (now : ℚ) : List ℚ :=
  rl.timestamps.filter (fun t => decide (now - rl.windowDuration < t))

/-- AllowMessage (middleware.go lines 30-54): purge, then reject without
recording when the remaining count is at capacity, otherwise record now
and accept. -/
def AllowMessage (rl : RateLimiter) (now : ℚ) : RateLimiter × Bool :=
  let filtered := purge rl now
  if rl.maxMessages ≤ filtered.length then
    ({ rl with timestamps := filtered }, false)
  else
    ({ rl with timestamps := filtered ++ [now] }, true)

/-- Run AllowMessage once per instant of the list, in order, collecting
the returned booleans. -/
def processAll (rl : RateLimiter) (times : List ℚ) : RateLimiter × List Bool :=
  match times with
  | [] => (rl, [])
  | t :: ts =>
    let step := AllowMessage rl t
    let rest := processAll step.1 ts
    (rest.1, step.2 :: rest.2)

/-- CommandHistory state (middleware.go lines 57-61); the mutex plays no
role in this sequential model. -/
structure CommandHistory where
  commands : List String
  maxSize : ℕ
  deriving DecidableEq

/-- NewCommandHistory (middleware.go lines 64-69): empty command list
whose backing slice has capacity equal to size. -/
def NewCommandHistory (size : ℕ) : CommandHistory :=
  { commands := [], maxSize := size }

/-- Add (middleware.go lines 72-80): at capacity the code drops the
oldest entry by evaluating the slice expression commands[1:] before
appending.  On the empty zero-capacity slice made by NewCommandHistory 0
that expression exceeds the slice capacity and Go panics; the panic is
modelled as none.  In every state with a nonempty slice, commands[1:] is
its tail. -/
def Add (ch : CommandHistory) (command : String) : Option CommandHistory :=
  if ch.maxSize ≤ ch.commands.length then
    match ch.commands with
    | [] => none
    | _ :: rest => some { ch with commands := rest ++ [command] }
  else
    some { ch with commands := ch.commands ++ [command] }

/-- GetHistory (middleware.go lines 83-91): returns a copy of the stored
commands; in this pure model the copy is the list itself. -/
def GetHistory (ch : CommandHistory) : List String :=
  ch.commands

/-- A sequence of Add calls in order, stopping at the first panic. -/
def addAll (ch : CommandHistory) (cmds : List String) : Option CommandHistory :=
  match cmds with
  | [] => some ch
  | c :: cs =>
    match Add ch c with
    | none => none
    | some ch2 => addAll ch2 cs

/-- Connections are identified by a numeric id, standing for Go's
pointer identity of *websocket.Conn. -/
abbrev Conn := ℕ

/-- One pass of the broadcast arm of ClientHub.Run (middleware.go lines
152-166): iterate the members, skip the sender, attempt the write to
each other member and record its outcome; a failed write is only logged,
so the loop continues with the remaining members. -/
def runBroadcast (clients : List Conn) (sender : Conn) (writeOk : Conn → Bool) :
    List (Conn × Bool) :=
  match clients with
  | [] => []
  | c :: rest =>
    if c = sender then runBroadcast rest sender writeOk
    else (c, writeOk c) :: runBroadcast rest sender writeOk

/-- strings.HasPrefix at scalar-value granularity; for an ASCII pattern
on well-formed UTF-8 input this coincides with Go's byte-level test. -/
def hasPrefixStr (s pat : String) : Bool :=
  pat.data.isPrefixOf s.data

/-- strings.TrimPrefix after a successful prefix test: drop exactly the
prefix length (all dispatch prefixes are ASCII, so bytes = scalars). -/
def dropStr (s : String) (n : ℕ) : String :=
  { data := s.data.drop n }

/-- The action selected for a text message by the dispatch if-chain of
HandleWebSocket (handler.go lines 217-239). -/
inductive DispatchAction where
  | upper (text : String)
  | reverse (text : String)
  | command (payload : String)
  | echo (payload : String)
  deriving DecidableEq

/-- The dispatch if-chain (handler.go lines 217-239), in source order:
UPPER: prefix, then REVERSE: prefix, then a nonempty message starting
with an opening brace, then verbatim echo.  There is no branch for a
HISTORY command, a BROADCAST: prefix, or any rate-limit check. -/
def classify (message : String) : DispatchAction :=
  if hasPrefixStr message "UPPER:" = true then
    DispatchAction.upper (dropStr message 6)
  else if hasPrefixStr message "REVERSE:" = true then
    DispatchAction.reverse (dropStr message 8)
  else if 0 < message.length ∧ hasPrefixStr message "\x7b" = true then
    DispatchAction.command message
  else
    DispatchAction.echo message

/-- strings.ToUpper modelled at scalar-value granularity by the
per-character upper-casing map; no checked property inspects the case
mapping beyond branch selection. -/
def goToUpper (s : String) : String :=
  { data := s.data.map Char.toUpper }

/-- One parallel swap, as the Go statement
runes[i], runes[j] = runes[j], runes[i]: both reads happen before both
writes.  Indices are in range at every use inside the loop. -/
def swapAt (l : List Char) (i j : ℕ) : List Char :=
  (l.set i (l.getD j default)).set j (l.getD i default)

/-- The two-pointer in-place reversal loop of the REVERSE branch
(handler.go lines 224-226): for i, j = 0, len-1; i < j; i++, j--. -/
def revLoop (l : List Char) (i j : ℕ) : List Char :=
  if h : i < j then revLoop (swapAt l i j) (i + 1) (j - 1) else l
termination_by j - i
decreasing_by omega

/-- The REVERSE branch (handler.go lines 222-227): convert to runes,
reverse in place, convert back.  Lean strings are sequences of Unicode
scalar values, matching []rune on well-formed UTF-8 text. -/
def reverseTransform (s : String) : String :=
  { data := revLoop s.data 0 (s.data.length - 1) }

/-- Textual rendering of a marshalled field value.  Integral numbers
print as Go's strconv does; non-integral rationals print in fraction
form, a deviation from decimal float formatting that no checked
property inspects. -/
def renderJField (v : JField) : String :=
  match v with
  | .num q => if q.den = 1 then toString q.num else toString q
  | .str s => "\"" ++ s ++ "\""

/-- Textual rendering of a marshalled JSON object. -/
def renderFields (fs : List (String × JField)) : String :=
  "\x7b" ++
    String.intercalate ","
      (fs.map (fun f => "\"" ++ f.1 ++ "\":" ++ renderJField f.2)) ++
    "\x7d"

/-- The response body computed for one text message (handler.go lines
214-239).  The json.Unmarshal outcome for the command branch is supplied
by the parse argument.  When the response fails to marshal - reachable
when an arithmetic result overflows to an infinity - processCommand
returns the error and the fallback at handler.go lines 231-233 formats
it as a bare error object via fmt.Sprintf. -/
def responseBody (parse : String → ParseOutcome) (message : String) : String :=
  match classify message with
  | .upper t => goToUpper t
  | .reverse t => reverseTransform t
  | .command payload =>
    match marshalResponse (processCommand (parse payload)) with
    | .ok fs => renderFields fs
    | .error e => "\x7b\"error\":\"" ++ e ++ "\"\x7d"
  | .echo m => m

/-- One iteration of the read loop for a received frame (handler.go
lines 184-249): a text frame (type 1) increments the uint64 message
counter, computes a body and writes it prefixed with the counter value;
a frame of any other type falls through the type test, writing nothing
and leaving the counter untouched. -/
def handleFrame (parse : String → ParseOutcome) (counter : ℕ) (msgType : ℕ)
    (payload : String) : ℕ × Option String :=
  if msgType = 1 then
    let id := (counter + 1) % 2 ^ 64
    (id, some ("#" ++ toString id ++ " " ++ responseBody parse payload))
  else
    (counter, none)

lemma marshalResponse_finite (r : CommandResponse) (q : ℚ)
    (h : r.result = GoFloat.finite q) :
    marshalResponse r =
      Except.ok ((if q = 0 then [] else [("result", JField.num q)]) ++
        [("command", JField.str r.command)] ++
        (if r.error = "" then [] else [("error", JField.str r.error)])) := by
  simp only [marshalResponse, h]

lemma marshalResponse_posInf (r : CommandResponse)
    (h : r.result = GoFloat.posInf) :
    marshalResponse r = Except.error "json: unsupported value: +Inf" := by
  simp only [marshalResponse, h]

lemma marshalResponse_negInf (r : CommandResponse)
    (h : r.result = GoFloat.negInf) :
    marshalResponse r = Except.error "json: unsupported value: -Inf" := by
  simp only [marshalResponse, h]

lemma marshalResponse_nan (r : CommandResponse) (h : r.result = GoFloat.nan) :
    marshalResponse r = Except.error "json: unsupported value: NaN" := by
  simp only [marshalResponse, h]

lemma evalCommand_shape (req : CommandRequest) :
    (evalCommand req).result = GoFloat.finite 0 ∨ (evalCommand req).error = "" := by
  unfold evalCommand
  split
  · left; rfl
  · right; rfl

lemma processCommand_error_result (p : ParseOutcome) :
    (processCommand p).error ≠ "" → (processCommand p).result = GoFloat.finite 0 := by
  cases p with
  | failed m => intro _; rfl
  | parsed req =>
    intro h
    rcases evalCommand_shape req with h1 | h1
    · exact h1
    · exact absurd h1 h

/-- Claim C6: evaluating a divide request with second operand 0 yields a
response whose error field is "division by zero" and whose serialized
form has no result field, for every first operand X; the response
marshals successfully (its result is the finite zero value), so the
client receives this structured error, not an exception or a marshal
failure. -/
theorem divide_by_zero_structured (X : ℚ) :
    marshalResponse (evalCommand { command := "divide", a := X, b := 0 }) =
      Except.ok [("command", JField.str "divide"),
        ("error", JField.str "division by zero")] := by
  rfl

/-- Claim C2 counterexample: the request add 0 0 produces a response that
carries the numeric result 0 and no error, yet its serialized output has
no result field (omitempty drops a zero float64), contradicting the
claim that the result field is present in the serialized output whenever
a numeric result is carried, including a result equal to 0. -/
theorem result_zero_omitted_counterexample :
    evalCommand { command := "add", a := 0, b := 0 } =
      { command := "add", result := GoFloat.finite 0, error := "" } ∧
    marshalResponse (evalCommand { command := "add", a := 0, b := 0 }) =
      Except.ok [("command", JField.str "add")] := by
  have hr0 : roundF (0 : ℚ) = GoFloat.finite 0 := by
    unfold roundF overflowBound underflowBound
    rw [if_neg (by norm_num), if_neg (by norm_num), if_pos (by norm_num)]
  have h0 : evalCommand { command := "add", a := 0, b := 0 } =
      { command := "add", result := GoFloat.finite 0, error := "" } := by
    simp [evalCommand, evalResultErr, hr0]
  refine ⟨h0, ?_⟩
  rw [h0]
  rfl

/-- Claim C2, amended: for every parse outcome the response sets at most
one of result and error.  An error response carries result 0 and its
serialized output has the error field and no result field.  An
error-free response whose float64 result is finite serializes with no
error field and with the result field present exactly when the result is
nonzero (a zero result is dropped by omitempty, so such a response
serializes with neither optional field).  An error-free response whose
result is non-finite - reachable by operand overflow, e.g. adding 1e308
to itself - does not serialize at all: json.Marshal fails and the
handler's fallback emits a bare error body instead of a response
object. -/
theorem response_exclusive_fields (p : ParseOutcome) :
    ((processCommand p).error ≠ "" →
      (processCommand p).result = GoFloat.finite 0 ∧
      ∃ fs, marshalResponse (processCommand p) = Except.ok fs ∧
        hasField fs "error" = true ∧ hasField fs "result" = false) ∧
    ((processCommand p).error = "" →
      ∀ fs, marshalResponse (processCommand p) = Except.ok fs →
        hasField fs "error" = false ∧
        (hasField fs "result" = true ↔
          (processCommand p).result ≠ GoFloat.finite 0)) ∧
    (((processCommand p).result).isFinite = false →
      (processCommand p).error = "" ∧
      ∃ e, marshalResponse (processCommand p) = Except.error e) := by
  refine ⟨?_, ?_, ?_⟩
  · intro h
    have hr := processCommand_error_result p h
    have hm : marshalResponse (processCommand p) =
        Except.ok [("command", JField.str (processCommand p).command),
          ("error", JField.str (processCommand p).error)] := by
      rw [marshalResponse_finite (processCommand p) 0 hr]
      simp [h]
    exact ⟨hr, _, hm, by simp [hasField], by simp [hasField]⟩
  · intro h fs hfs
    cases hq : (processCommand p).result with
    | finite q =>
      have hm : marshalResponse (processCommand p) =
          Except.ok ((if q = 0 then [] else [("result", JField.num q)]) ++
            [("command", JField.str (processCommand p).command)]) := by
        rw [marshalResponse_finite (processCommand p) q hq]
        simp [h]
      rw [hfs] at hm
      injection hm with hm2
      subst hm2
      constructor
      · by_cases hq0 : q = 0 <;> simp [hasField, hq0]
      · by_cases hq0 : q = 0 <;> simp [hasField, hq0]
    | posInf =>
      rw [marshalResponse_posInf _ hq] at hfs
      simp at hfs
    | negInf =>
      rw [marshalResponse_negInf _ hq] at hfs
      simp at hfs
    | nan =>
      rw [marshalResponse_nan _ hq] at hfs
      simp at hfs
  · intro hfin
    have he : (processCommand p).error = "" := by
      by_contra hne
      have h0 := processCommand_error_result p hne
      rw [h0] at hfin
      simp [GoFloat.isFinite] at hfin
    refine ⟨he, ?_⟩
    cases hq : (processCommand p).result with
    | finite q =>
      rw [hq] at hfin
      simp [GoFloat.isFinite] at hfin
    | posInf => exact ⟨_, marshalResponse_posInf _ hq⟩
    | negInf => exact ⟨_, marshalResponse_negInf _ hq⟩
    | nan => exact ⟨_, marshalResponse_nan _ hq⟩

/-- Witness for the amended C2 theorem at two concrete requests: a
divide-by-zero request marshals successfully with an error field, and
adding 1e308 to itself overflows to an infinite result whose response
fails to marshal. -/
theorem response_exclusive_fields_witness :
    (∃ fs, marshalResponse (processCommand (ParseOutcome.parsed
        { command := "divide", a := 1, b := 0 })) = Except.ok fs ∧
      hasField fs "error" = true) ∧
    (∃ e, marshalResponse (processCommand (ParseOutcome.parsed
        { command := "add", a := (10 : ℚ) ^ 308, b := (10 : ℚ) ^ 308 })) =
      Except.error e) := by
  constructor
  · obtain ⟨-, fs, hm, he, -⟩ := (response_exclusive_fields (ParseOutcome.parsed
        { command := "divide", a := 1, b := 0 })).1 (by decide)
    exact ⟨fs, hm, he⟩
  · have hoverflow : roundF ((10 : ℚ) ^ 308 + (10 : ℚ) ^ 308) = GoFloat.posInf := by
      unfold roundF overflowBound
      rw [if_neg (by norm_num), if_pos (by norm_num)]
    have h2 : (processCommand (ParseOutcome.parsed
        { command := "add", a := (10 : ℚ) ^ 308, b := (10 : ℚ) ^ 308 })).result
        = GoFloat.posInf := by
      simp [processCommand, evalCommand, evalResultErr, hoverflow]
    have hfin : ((processCommand (ParseOutcome.parsed
        { command := "add", a := (10 : ℚ) ^ 308, b := (10 : ℚ) ^ 308 })).result).isFinite
        = false := by
      rw [h2]
      rfl
    obtain ⟨-, e, hm⟩ := (response_exclusive_fields (ParseOutcome.parsed
        { command := "add", a := (10 : ℚ) ^ 308, b := (10 : ℚ) ^ 308 })).2.2 hfin
    exact ⟨e, hm⟩

lemma purge_keep_all (rl : RateLimiter) (now : ℚ)
    (h : ∀ s ∈ rl.timestamps, now - rl.windowDuration < s) :
    purge rl now = rl.timestamps := by
  unfold purge
  refine List.filter_eq_self.2 (fun a ha => ?_)
  simpa using h a ha

lemma purge_drop_all (rl : RateLimiter) (now : ℚ)
    (h : ∀ s ∈ rl.timestamps, s ≤ now - rl.windowDuration) :
    purge rl now = [] := by
  unfold purge
  refine List.filter_eq_nil_iff.2 (fun a ha => ?_)
  simpa using h a ha

lemma processAll_accepts (N : ℕ) (w : ℚ) :
    ∀ (ts acc : List ℚ),
      acc.length + ts.length ≤ N →
      (∀ s ∈ acc, ∀ t ∈ ts, t - s < w) →
      (∀ s ∈ ts, ∀ t ∈ ts, t - s < w) →
      processAll { timestamps := acc, maxMessages := N, windowDuration := w } ts =
        ({ timestamps := acc ++ ts, maxMessages := N, windowDuration := w },
          List.replicate ts.length true) := by
  intro ts
  induction ts with
  | nil => intro acc _ _ _; simp [processAll]
  | cons t ts ih =>
    intro acc hlen hcross hself
    have hpurge :
        purge { timestamps := acc, maxMessages := N, windowDuration := w } t = acc := by
      refine purge_keep_all _ _ (fun s hs => ?_)
      have := hcross s hs t (by simp)
      simp only []
      linarith
    have hlt : ¬ N ≤ acc.length := by
      simp at hlen
      omega
    have hstep :
        AllowMessage { timestamps := acc, maxMessages := N, windowDuration := w } t =
          ({ timestamps := acc ++ [t], maxMessages := N, windowDuration := w }, true) := by
      simp [AllowMessage, hpurge, hlt]
    have hcross2 : ∀ s ∈ acc ++ [t], ∀ u ∈ ts, u - s < w := by
      intro s hs u hu
      rcases List.mem_append.1 hs with hs1 | hs1
      · exact hcross s hs1 u (List.mem_cons_of_mem _ hu)
      · have : s = t := by simpa using hs1
        subst this
        exact hself s (List.mem_cons_self _ _) u (List.mem_cons_of_mem _ hu)
    have hself2 : ∀ s ∈ ts, ∀ u ∈ ts, u - s < w := by
      intro s hs u hu
      exact hself s (List.mem_cons_of_mem _ hs) u (List.mem_cons_of_mem _ hu)
    have hlen2 : (acc ++ [t]).length + ts.length ≤ N := by
      simp at hlen ⊢
      omega
    have hrec := ih (acc ++ [t]) hlen2 hcross2 hself2
    simp only [processAll, hstep, hrec]
    simp [List.replicate_succ]

lemma processAll_append (rl : RateLimiter) (l1 l2 : List ℚ) :
    processAll rl (l1 ++ l2) =
      ((processAll (processAll rl l1).1 l2).1,
        (processAll rl l1).2 ++ (processAll (processAll rl l1).1 l2).2) := by
  induction l1 generalizing rl with
  | nil => simp [processAll]
  | cons t ts ih => simp [processAll, ih]

/-- Claim C3: from a fresh limiter with capacity N ≥ 1 and window w
(the positivity of N is presupposed by the claim's final clause), a
burst of N+1 calls whose instants all fall within one window of each
other yields true for exactly the first N calls; the last call returns
false and records nothing, leaving exactly the first N instants stored;
and once every recorded timestamp is at least windowDuration old, the
next call returns true again. -/
theorem rateLimiter_burst (N : ℕ) (w : ℚ) (ts : List ℚ) (tLast : ℚ)
    (hN : 0 < N) (hlen : ts.length = N)
    (hburst : ∀ s ∈ ts ++ [tLast], ∀ t ∈ ts ++ [tLast], t - s < w) :
    (processAll (NewRateLimiter N w) (ts ++ [tLast])).2 =
      List.replicate N true ++ [false] ∧
    (processAll (NewRateLimiter N w) (ts ++ [tLast])).1.timestamps = ts ∧
    (∀ t2 : ℚ, (∀ s ∈ ts, s ≤ t2 - w) →
      (AllowMessage (processAll (NewRateLimiter N w) (ts ++ [tLast])).1 t2).2 = true) := by
  have hself : ∀ s ∈ ts, ∀ t ∈ ts, t - s < w := fun s hs t ht =>
    hburst s (List.mem_append_left _ hs) t (List.mem_append_left _ ht)
  have h1 : processAll (NewRateLimiter N w) ts =
      ({ timestamps := ts, maxMessages := N, windowDuration := w },
        List.replicate N true) := by
    have := processAll_accepts N w ts [] (by simp [hlen]) (by simp) hself
    simpa [NewRateLimiter, hlen] using this
  have hpurge : purge { timestamps := ts, maxMessages := N, windowDuration := w } tLast = ts := by
    refine purge_keep_all _ _ (fun s hs => ?_)
    have := hburst s (List.mem_append_left _ hs) tLast (by simp)
    simp only []
    linarith
  have hge : N ≤ ts.length := by omega
  have hfull : processAll (NewRateLimiter N w) (ts ++ [tLast]) =
      ({ timestamps := ts, maxMessages := N, windowDuration := w },
        List.replicate N true ++ [false]) := by
    rw [processAll_append, h1]
    simp [processAll, AllowMessage, hpurge, hge]
  refine ⟨by rw [hfull], by rw [hfull], ?_⟩
  intro t2 h2
  rw [hfull]
  have hpurge2 : purge { timestamps := ts, maxMessages := N, windowDuration := w } t2 = [] := by
    refine purge_drop_all _ _ (fun s hs => ?_)
    simpa using h2 s hs
  have hnot : ¬ N ≤
      (purge { timestamps := ts, maxMessages := N, windowDuration := w } t2).length := by
    rw [hpurge2]
    simp
    omega
  simp only [AllowMessage, if_neg hnot]

/-- Witness for the C3 theorem: capacity 2, window 10, burst at instants
0, 1, 2, then a later call at instant 12. -/
theorem rateLimiter_burst_witness :
    (processAll (NewRateLimiter 2 10) ([0, 1] ++ [2])).2 =
      List.replicate 2 true ++ [false] ∧
    (AllowMessage (processAll (NewRateLimiter 2 10) ([0, 1] ++ [2])).1 12).2 = true := by
  have h := rateLimiter_burst 2 10 [0, 1] 2 (by norm_num) (by norm_num)
    (by
      intro s hs t ht
      simp at hs ht
      rcases hs with rfl | rfl | rfl <;> rcases ht with rfl | rfl | rfl <;> norm_num)
  exact ⟨h.1, h.2.2 12 (by
    intro s hs
    simp at hs
    rcases hs with rfl | rfl <;> norm_num)⟩

/-- Claim C4 counterexample: with windowDuration 10 and a stored
timestamp 0, purging at instant 10 removes the timestamp even though it
lies in the closed interval [now - windowDuration, now] (it equals the
left endpoint exactly), contradicting the claimed closed-interval
retention. -/
theorem purge_boundary_counterexample :
    purge { timestamps := [0], maxMessages := 5, windowDuration := 10 } 10 = [] ∧
    (10 : ℚ) - 10 ≤ 0 ∧ (0 : ℚ) ≤ 10 := by
  refine ⟨?_, by norm_num, by norm_num⟩
  refine purge_drop_all _ _ (fun s hs => ?_)
  simp at hs
  subst hs
  norm_num

/-- Claim C4, amended: for previously stored timestamps that do not lie
in the future of the evaluation instant, the purge retains exactly those
in the half-open interval (now - windowDuration, now]: strictly newer
than now - windowDuration, a timestamp exactly at the cutoff being
dropped; and AllowMessage performs this purge before its admission
check, both its decision and its recorded state being functions of the
purged list. -/
theorem purge_halfopen (rl : RateLimiter) (now : ℚ)
    (hle : ∀ t ∈ rl.timestamps, t ≤ now) :
    purge rl now =
      rl.timestamps.filter
        (fun t => decide (now - rl.windowDuration < t ∧ t ≤ now)) ∧
    AllowMessage rl now =
      (if rl.maxMessages ≤ (purge rl now).length then
        ({ rl with timestamps := purge rl now }, false)
      else
        ({ rl with timestamps := purge rl now ++ [now] }, true)) := by
  constructor
  · unfold purge
    refine List.filter_congr (fun t ht => ?_)
    simp [hle t ht]
  · rfl

/-- Witness for the amended C4 theorem: stored timestamps 0 and 5,
window 10, evaluated at instant 5. -/
theorem purge_halfopen_witness :
    purge { timestamps := [0, 5], maxMessages := 3, windowDuration := 10 } 5 =
      List.filter (fun t => decide (5 - 10 < t ∧ t ≤ 5)) [0, 5] := by
  exact (purge_halfopen { timestamps := [0, 5], maxMessages := 3, windowDuration := 10 } 5
    (by
      intro t ht
      simp at ht
      rcases ht with rfl | rfl <;> norm_num)).1

lemma addAll_keeps_last (m : ℕ) (hm : 0 < m) :
    ∀ (cmds : List String) (ch : CommandHistory),
      ch.maxSize = m → ch.commands.length ≤ m →
      addAll ch cmds =
        some { commands :=
                (ch.commands ++ cmds).drop (ch.commands.length + cmds.length - m),
               maxSize := m } := by
  intro cmds
  induction cmds with
  | nil =>
    intro ch hsize hlen
    obtain ⟨cmds0, ms⟩ := ch
    dsimp only at hsize hlen ⊢
    have hms := hsize.symm
    subst hms
    have h0 : cmds0.length - m = 0 := by omega
    simp [addAll, h0]
  | cons c cs ih =>
    intro ch hsize hlen
    obtain ⟨cmds0, ms⟩ := ch
    dsimp only at hsize hlen ⊢
    have hms := hsize.symm
    subst hms
    by_cases hcap : cmds0.length < m
    · have hAdd : Add ⟨cmds0, m⟩ c = some ⟨cmds0 ++ [c], m⟩ := by
        unfold Add
        rw [if_neg (by dsimp only; omega)]
      simp only [addAll, hAdd]
      rw [ih ⟨cmds0 ++ [c], m⟩ rfl (by simp; omega)]
      have h1 : (cmds0 ++ [c]) ++ cs = cmds0 ++ (c :: cs) := by simp
      have h2 : (cmds0 ++ [c]).length + cs.length - m
          = cmds0.length + (c :: cs).length - m := by
        simp only [List.length_append, List.length_cons, List.length_nil]
        omega
      rw [h1, h2]
    · have hlen2 : cmds0.length = m := by omega
      obtain ⟨hd, tl, rfl⟩ : ∃ hd tl, cmds0 = hd :: tl := by
        cases cmds0 with
        | nil => simp at hlen2; omega
        | cons a b => exact ⟨a, b, rfl⟩
      have htl : tl.length + 1 = m := by simpa using hlen2
      have hAdd : Add ⟨hd :: tl, m⟩ c = some ⟨tl ++ [c], m⟩ := by
        unfold Add
        rw [if_pos (by simp only [List.length_cons]; omega)]
      simp only [addAll, hAdd]
      rw [ih ⟨tl ++ [c], m⟩ rfl (by simp; omega)]
      have h1 : (tl ++ [c]) ++ cs = tl ++ (c :: cs) := by simp
      have h2 : (tl ++ [c]).length + cs.length - m = cs.length := by
        simp only [List.length_append, List.length_cons, List.length_nil]
        omega
      have h3 : (hd :: tl).length + (c :: cs).length - m = cs.length + 1 := by
        simp only [List.length_cons]
        omega
      rw [h1, h2, h3]
      simp [List.cons_append]

/-- Claim C5: from a fresh history of capacity m ≥ 1 (m ≥ 1 is the
panic-freedom precondition of Add), adding m + k entries with k > 0
completes without panic and GetHistory then returns exactly the last m
entries in insertion order; after every prefix of the insertions the
stored length is at most m; and an insertion into a full history evicts
exactly the oldest entry, appending the new one. -/
theorem commandHistory_last_entries (m k : ℕ) (cmds : List String)
    (hm : 0 < m) (hk : 0 < k) (hlen : cmds.length = m + k) :
    (∃ h2, addAll (NewCommandHistory m) cmds = some h2 ∧
      GetHistory h2 = cmds.drop k) ∧
    (∀ n : ℕ, ∃ h3, addAll (NewCommandHistory m) (cmds.take n) = some h3 ∧
      h3.commands.length ≤ m) ∧
    (∀ (ch : CommandHistory) (c : String), ch.maxSize = m →
      ch.commands.length = m →
      Add ch c = some { commands := ch.commands.tail ++ [c], maxSize := m }) := by
  have key := addAll_keeps_last m hm
  refine ⟨?_, ?_, ?_⟩
  · refine ⟨_, key cmds (NewCommandHistory m) rfl (by simp [NewCommandHistory]), ?_⟩
    simp only [GetHistory, NewCommandHistory, List.nil_append, List.length_nil]
    rw [hlen]
    congr 1
    omega
  · intro n
    refine ⟨_, key (cmds.take n) (NewCommandHistory m) rfl
      (by simp [NewCommandHistory]), ?_⟩
    simp only [NewCommandHistory, List.nil_append, List.length_nil,
      List.length_drop, List.length_take]
    omega
  · intro ch c hsize hcap
    obtain ⟨cmds0, ms⟩ := ch
    dsimp only at hsize hcap ⊢
    have hms := hsize.symm
    subst hms
    cases cmds0 with
    | nil =>
      simp only [List.length_nil] at hcap
      omega
    | cons hd tl =>
      unfold Add
      rw [if_pos (le_of_eq hcap.symm)]
      rfl

/-- Witness for the C5 theorem: capacity 2, three insertions, history is
the last two entries. -/
theorem commandHistory_last_entries_witness :
    ∃ h2, addAll (NewCommandHistory 2) ["a", "b", "c"] = some h2 ∧
      GetHistory h2 = List.drop 1 ["a", "b", "c"] :=
  (commandHistory_last_entries 2 1 ["a", "b", "c"]
    (by norm_num) (by norm_num) (by simp)).1

/-- Claim C10: Add on a history constructed with maxSize 0 panics on its
first call (the eviction slice expression commands[1:] is out of range
for the empty zero-capacity slice), and under the precondition
maxSize ≥ 1 every Add call is total and panic-free. -/
theorem add_zero_capacity_panics :
    Add (NewCommandHistory 0) "x" = none ∧
    (∀ (ch : CommandHistory) (c : String), 1 ≤ ch.maxSize →
      (Add ch c).isSome = true) := by
  constructor
  · rfl
  · intro ch c h
    obtain ⟨cmds0, ms⟩ := ch
    dsimp only at h ⊢
    cases cmds0 with
    | nil =>
      unfold Add
      rw [if_neg (by simp only [List.length_nil]; omega)]
      rfl
    | cons hd tl =>
      unfold Add
      by_cases hc : ms ≤ (hd :: tl).length
      · rw [if_pos hc]; rfl
      · rw [if_neg hc]; rfl

/-- Witness for the C10 theorem: a history with capacity 1 accepts an
insertion without panicking. -/
theorem add_zero_capacity_panics_witness :
    (Add { commands := ["a"], maxSize := 1 } "b").isSome = true :=
  add_zero_capacity_panics.2 { commands := ["a"], maxSize := 1 } "b" (by norm_num)

lemma runBroadcast_map_fst (clients : List Conn) (s : Conn) (w : Conn → Bool) :
    (runBroadcast clients s w).map Prod.fst =
      clients.filter (fun c => decide (c ≠ s)) := by
  induction clients with
  | nil => rfl
  | cons c rest ih =>
    by_cases hc : c = s
    · subst hc
      simp [runBroadcast, ih]
    · simp [runBroadcast, hc, ih]

lemma runBroadcast_mem (clients : List Conn) (s : Conn) (w : Conn → Bool) :
    ∀ c ∈ clients, c ≠ s → (c, w c) ∈ runBroadcast clients s w := by
  induction clients with
  | nil =>
    intro c hc
    simp at hc
  | cons a rest ih =>
    intro c hc hcs
    rcases List.mem_cons.1 hc with rfl | hmem
    · simp only [runBroadcast, if_neg hcs]
      exact List.mem_cons_self _ _
    · by_cases ha : a = s
      · simp only [runBroadcast, if_pos ha]
        exact ih c hmem hcs
      · simp only [runBroadcast, if_neg ha]
        exact List.mem_cons_of_mem _ (ih c hmem hcs)

/-- Claim C8: one broadcast pass targets exactly the members other than
the sender, in membership order; every non-sender member is attempted
with its own write outcome irrespective of the other members' write
failures, so one failed recipient never aborts delivery to the rest;
and the sender never appears among the recipients. -/
theorem broadcast_excludes_sender (clients : List Conn) (sender : Conn)
    (writeOk : Conn → Bool) :
    (runBroadcast clients sender writeOk).map Prod.fst =
      clients.filter (fun c => decide (c ≠ sender)) ∧
    (∀ c ∈ clients, c ≠ sender →
      (c, writeOk c) ∈ runBroadcast clients sender writeOk) ∧
    sender ∉ (runBroadcast clients sender writeOk).map Prod.fst := by
  refine ⟨runBroadcast_map_fst clients sender writeOk,
    runBroadcast_mem clients sender writeOk, ?_⟩
  rw [runBroadcast_map_fst]
  intro hmem
  rcases List.mem_filter.1 hmem with ⟨_, hdec⟩
  simp at hdec

/-- Witness for the C8 theorem: members 1 and 3, sender 2, every write
failing; member 1 is still attempted (and its failure recorded). -/
theorem broadcast_excludes_sender_witness :
    ((1 : ℕ), false) ∈ runBroadcast [1, 3] 2 (fun _ => false) :=
  (broadcast_excludes_sender [1, 3] 2 (fun _ => false)).2.1 1
    (by norm_num) (by norm_num)

/-- Claim C1, evaluated on the code at the failing inputs: the dispatch
if-chain recognizes only the UPPER: prefix, the REVERSE: prefix and a
leading opening brace; the literal HISTORY message and a BROADCAST:
message match no branch and are echoed verbatim, so no history snapshot
is returned and nothing is handed to the hub - the handler's read loop
never wires in CommandHistory, ClientHub or the rate limiter. -/
theorem history_broadcast_unwired :
    classify "HISTORY" = DispatchAction.echo "HISTORY" ∧
    classify "BROADCAST:hi" = DispatchAction.echo "BROADCAST:hi" ∧
    classify "UPPER:x" = DispatchAction.upper "x" ∧
    classify "REVERSE:x" = DispatchAction.reverse "x" ∧
    classify "\x7bx" = DispatchAction.command "\x7bx" := by
  refine ⟨?_, ?_, ?_, ?_, ?_⟩ <;> decide

/-- Claim C9: a received frame whose type is not a text frame (type 1,
e.g. a binary frame of type 2) produces no reply and leaves the global
message counter unchanged; a text frame increments the counter modulo
2^64 and produces exactly one reply carrying the new counter value. -/
theorem nontext_frames_ignored (parse : String → ParseOutcome)
    (counter msgType : ℕ) (payload : String) :
    (msgType ≠ 1 → handleFrame parse counter msgType payload = (counter, none)) ∧
    (msgType = 1 → handleFrame parse counter msgType payload =
      ((counter + 1) % 2 ^ 64,
        some ("#" ++ toString ((counter + 1) % 2 ^ 64) ++ " " ++
          responseBody parse payload))) := by
  constructor
  · intro h
    simp [handleFrame, h]
  · intro h
    subst h
    simp [handleFrame]

/-- Witness for the C9 theorem: a binary frame (type 2) at counter 5 is
ignored. -/
theorem nontext_frames_ignored_witness :
    handleFrame (fun s => ParseOutcome.failed s) 5 2 "hi" = (5, none) :=
  (nontext_frames_ignored (fun s => ParseOutcome.failed s) 5 2 "hi").1
    (by norm_num)

lemma getD_at_len (P : List Char) (c : Char) (rest : List Char) (d0 : Char) :
    (P ++ c :: rest).getD P.length d0 = c := by
  induction P with
  | nil => rfl
  | cons p P ih => simpa using ih

lemma set_at_len (P : List Char) (c x : Char) (rest : List Char) :
    (P ++ c :: rest).set P.length x = P ++ x :: rest := by
  induction P with
  | nil => rfl
  | cons p P ih => simp [ih]

lemma swapAt_ends (P M S : List Char) (c d : Char) :
    swapAt (P ++ c :: (M ++ d :: S)) P.length (P.length + M.length + 1) =
      P ++ d :: (M ++ c :: S) := by
  have hgetj : (P ++ c :: (M ++ d :: S)).getD (P.length + M.length + 1) default = d := by
    have h1 : P ++ c :: (M ++ d :: S) = (P ++ c :: M) ++ d :: S := by simp
    have h2 : P.length + M.length + 1 = (P ++ c :: M).length := by
      simp only [List.length_append, List.length_cons]
      omega
    rw [h1, h2, getD_at_len]
  have hgeti : (P ++ c :: (M ++ d :: S)).getD P.length default = c :=
    getD_at_len _ _ _ _
  unfold swapAt
  rw [hgetj, hgeti, set_at_len]
  have h1 : P ++ d :: (M ++ d :: S) = (P ++ d :: M) ++ d :: S := by simp
  have h2 : P.length + M.length + 1 = (P ++ d :: M).length := by
    simp only [List.length_append, List.length_cons]
    omega
  rw [h1, h2, set_at_len]
  simp

lemma revLoop_reverses (n : ℕ) :
    ∀ (M P S : List Char), M.length = n → S.length = P.length →
      revLoop (P ++ M ++ S) P.length (P.length + M.length - 1) =
        P ++ M.reverse ++ S := by
  induction n using Nat.strong_induction_on with
  | _ n ih =>
    intro M P S hM hS
    rcases M with _ | ⟨c, M1⟩
    · have hij : ¬ P.length < P.length + ([] : List Char).length - 1 := by
        simp
      rw [revLoop, dif_neg hij]
      simp
    · rcases List.eq_nil_or_concat M1 with rfl | ⟨M2, d, rfl⟩
      · have hij : ¬ P.length < P.length + [c].length - 1 := by simp
        rw [revLoop, dif_neg hij]
        simp
      · simp only [List.concat_eq_append] at hM ⊢
        have hn : M2.length + 2 = n := by simpa using hM
        have hij : P.length < P.length + (c :: (M2 ++ [d])).length - 1 := by
          simp only [List.length_cons, List.length_append, List.length_nil]
          omega
        rw [revLoop, dif_pos hij]
        have hidx : P.length + (c :: (M2 ++ [d])).length - 1
            = P.length + M2.length + 1 := by
          simp only [List.length_cons, List.length_append, List.length_nil]
          omega
        rw [hidx]
        have hshape : P ++ (c :: (M2 ++ [d])) ++ S = P ++ c :: (M2 ++ d :: S) := by
          simp
        rw [hshape, swapAt_ends]
        have harg : P ++ d :: (M2 ++ c :: S) = (P ++ [d]) ++ M2 ++ (c :: S) := by
          simp
        have hi2 : P.length + 1 = (P ++ [d]).length := by simp
        have hj2 : P.length + M2.length + 1 - 1
            = (P ++ [d]).length + M2.length - 1 := by
          simp only [List.length_append, List.length_cons, List.length_nil]
          omega
        rw [harg, hj2, hi2]
        rw [ih M2.length (by omega) M2 (P ++ [d]) (c :: S) rfl (by simp [hS])]
        simp

lemma revLoop_full (l : List Char) : revLoop l 0 (l.length - 1) = l.reverse := by
  have := revLoop_reverses l.length l [] [] rfl rfl
  simpa using this

/-- Claim C7: for every text made of well-formed Unicode scalar values,
the REVERSE transform (the two-pointer rune swap loop) returns the
code-point reversal of the text, and applying the transform twice
returns the original text. -/
theorem reverse_involution (s : String) :
    reverseTransform s = { data := s.data.reverse } ∧
    reverseTransform (reverseTransform s) = s := by
  constructor
  · unfold reverseTransform
    rw [revLoop_full]
  · unfold reverseTransform
    dsimp only
    rw [revLoop_full, revLoop_full, List.reverse_reverse]

end EchoServer
